import Mathlib

/-!
Verification of the quantitative core of the stock-portfolio-analysis
repository: a shallow embedding of `utils/portfolio.py`, `utils/alerts.py`,
`utils/data_loader.py`, the MACD computation of `utils/visualization.py`,
and the weight-normalization step of `app.py`, with theorems settling the
specification's claims about them.

Conventions of the embedding:
- machine floats are modelled by exact rationals (`ℚ`);
- the float value `nan` (pandas output for degenerate statistics) is
  modelled by `Option.none`;
- a Python exception is modelled by `Except.error`;
- the real-valued square root used for annualization factors is an
  arbitrary abstract function `s : ℚ → ℚ` passed to the definitions that
  need it (no claim depends on its values);
- a pandas `DataFrame` of prices (dates × tickers) is a `PriceTable`:
  the list of column labels plus one list of entries per date row.
-/

set_option autoImplicit false

namespace StockPortfolio

/-- `pandas.Series.pct_change().dropna()` on a series stored as a list:
simple percentage change between consecutive points, first row dropped. -/
def pctChange : List ℚ → List ℚ
  | x :: y :: rest => (y - x) / x :: pctChange (y :: rest)
  | _ => []

/-- Minimum of a list (`Series.min()`); `0` as junk value on `[]`
(theorems only use it on nonempty lists). -/
def listMin : List ℚ → ℚ
  | [] => 0
  | x :: xs => xs.foldl min x

/-- Maximum of a list (`Series.max()`); `0` as junk value on `[]`. -/
def listMax : List ℚ → ℚ
  | [] => 0
  | x :: xs => xs.foldl max x

/-- Helper for `cummax`: running maximum continuing from accumulator `m`. -/
def cummaxAux : ℚ → List ℚ → List ℚ
  | _, [] => []
  | m, x :: xs => max m x :: cummaxAux (max m x) xs

/-- `pandas.Series.cummax()`: running historical maximum. -/
def cummax : List ℚ → List ℚ
  | [] => []
  | x :: xs => x :: cummaxAux x xs

/-- Mean of a list (`Series.mean()`); junk `0` on `[]` (pandas gives nan,
reached by no claim). -/
def listMean (l : List ℚ) : ℚ := l.sum / l.length

/-- Sample variance with `ddof = 1`, the quantity under pandas'
`Series.std()` square root. -/
def sampleVar (l : List ℚ) : ℚ :=
  (l.map (fun x => (x - listMean l) ^ 2)).sum / ((l.length : ℚ) - 1)

/-- `pandas.Series.std()` (sample standard deviation, `ddof = 1`):
`none` (nan) on fewer than two data points, else the abstract square
root `s` of the sample variance. -/
def pandasStd (s : ℚ → ℚ) (l : List ℚ) : Option ℚ :=
  if l.length < 2 then none else some (s (sampleVar l))

/-- The price matrix handed to the engines: pandas DataFrame with
`index = dates`, `columns = tickers` (`symbols` are the column labels,
`rows` holds one price per symbol for each date, in column order). -/
structure PriceTable where
  symbols : List String
  rows : List (List ℚ)
deriving Repr, DecidableEq

/-- Weight pre-processing inside `compute_portfolio_value`
(utils/portfolio.py lines 20-26): `None` means equal weights
`1/len(columns)`; an explicit dict is re-normalized by its total, which
raises `ZeroDivisionError` when the total is `0`. -/
def normalizeW (weights : Option (List (String × ℚ))) (symbols : List String) :
    Except String (List (String × ℚ)) :=
  match weights with
  | none => .ok (symbols.map (fun t => (t, 1 / (symbols.length : ℚ))))
  | some w =>
    let total := (w.map Prod.snd).sum
    if total = 0 then .error "ZeroDivisionError"
    else .ok (w.map (fun p => (p.1, p.2 / total)))

/-- `weights_list = [weights[ticker] for ticker in data.columns]`
(utils/portfolio.py line 29): dict lookup per column, `KeyError` when a
column has no weight. -/
def alignWeights (wdict : List (String × ℚ)) (symbols : List String) :
    Except String (List ℚ) :=
  match symbols with
  | [] => .ok []
  | t :: ts =>
    match List.lookup t wdict, alignWeights wdict ts with
    | some v, .ok rest => .ok (v :: rest)
    | none, _ => .error "KeyError"
    | some _, .error e => .error e

/-- `compute_portfolio_value` (utils/portfolio.py): empty table gives the
empty series; otherwise prices are normalized by the first row, weighted,
summed per date and scaled by `initial`. -/
def computePortfolioValue (pt : PriceTable) (weights : Option (List (String × ℚ)))
    (initial : ℚ) : Except String (List ℚ) :=
  if pt.rows.isEmpty || pt.symbols.isEmpty then .ok []
  else
    match normalizeW weights pt.symbols with
    | .error e => .error e
    | .ok wdict =>
      match alignWeights wdict pt.symbols with
      | .error e => .error e
      | .ok wlist =>
        let row0 := pt.rows.headD []
        .ok (pt.rows.map (fun row =>
          (List.zipWith (· * ·) (List.zipWith (· / ·) row row0) wlist).sum * initial))

/-- The weight normalization performed by the caller (app.py lines 40-45):
zero total falls back to equal weights `1/len(tickers)`, otherwise raw
weights are divided by their total. -/
def normalizeWeightsApp (tickers : List String) (raw : List ℚ) :
    List (String × ℚ) :=
  if raw.sum = 0 then tickers.map (fun t => (t, 1 / (tickers.length : ℚ)))
  else (tickers.zip raw).map (fun p => (p.1, p.2 / raw.sum))

/-- `portfolio_value.iloc[-1] / portfolio_value.iloc[0] - 1` (app.py lines
114, 117 without the `* 100` display scaling): `iloc[-1]` is the head of
the reversed list. -/
def cumulativeReturn (l : List ℚ) : ℚ := l.reverse.headD 0 / l.headD 0 - 1

/-- The scalar bundle returned by `compute_portfolio_metrics`. -/
structure PortfolioMetrics where
  cumulativeReturn : ℚ
  annualVolatility : Option ℚ
  maxDrawdown : ℚ

/-- `compute_portfolio_metrics` (utils/portfolio.py lines 38-58):
cumulative return `pv[-1]/pv[0] - 1`, annualized volatility
`std(daily returns) * sqrt 252`, max drawdown
`(pv - pv.cummax()).min() / pv.cummax().max()`.  `s` is the abstract
square root used for the annualization factor. -/
def computePortfolioMetrics (s : ℚ → ℚ) (pv : List ℚ) : PortfolioMetrics :=
  let dr := pctChange pv
  { cumulativeReturn := pv.reverse.headD 0 / pv.headD 0 - 1
    annualVolatility := (pandasStd s dr).map (fun x => x * s 252)
    maxDrawdown := listMin (List.zipWith (· - ·) pv (cummax pv)) / listMax (cummax pv) }

/-- `compute_sortino_ratio` (utils/portfolio.py lines 69-79).  The
downside standard deviation of an empty or singleton sample is nan
(`none`): the code's `downside_std == 0` test is then false and the nan
propagates through the division, so the result is nan either way,
modelled by the `none` branch; an exact-zero downside deviation returns
`np.nan` explicitly. -/
def computeSortino (s : ℚ → ℚ) (riskFree : ℚ) (values : List ℚ) : Option ℚ :=
  let dr := pctChange values
  let excess := dr.map (fun r => r - riskFree / 252)
  match pandasStd s (dr.filter (fun r => r < 0)) with
  | none => none
  | some d => if d = 0 then none else some (listMean excess / d * s 252)

/-- `check_portfolio_drop` (utils/alerts.py lines 6-21): percent change of
every point relative to the first value; alert iff the minimum is
`≤ -threshold`.  The alert message is modelled by the magnitude it
carries, `abs(min_drop)`. -/
def check_portfolio_drop (pv : List ℚ) (threshold : ℚ) : Option ℚ :=
  match pv with
  | [] => none
  | v0 :: _ =>
    let dropPct := pv.map (fun v => (v / v0 - 1) * 100)
    let minDrop := listMin dropPct
    if minDrop ≤ -threshold then some |minDrop| else none

/-- `data[ticker]` column extraction: the entries of each row at the
position of `t` in the column labels (`none` when `t` is no column). -/
def getCol (pt : PriceTable) (t : String) : Option (List ℚ) :=
  (pt.symbols.findIdx? (fun u => u == t)).map
    (fun i => pt.rows.map (fun row => row.getD i 0))

/-- One iteration of the `check_stock_drops` loop (utils/alerts.py lines
36-42): skip tickers without a column, compute the day-over-day percent
changes of the column, alert when their minimum is `≤ -threshold`.  An
alert is modelled by the pair of the ticker and the carried magnitude
`abs(min_change)`; a column of fewer than two rows has an all-nan change
series, whose nan minimum triggers nothing. -/
def stockAlert (pt : PriceTable) (threshold : ℚ) (tk : String) :
    Option (String × ℚ) :=
  match getCol pt tk with
  | none => none
  | some col =>
    match pctChange col with
    | [] => none
    | dc0 :: dcs =>
      let m := listMin ((dc0 :: dcs).map (fun r => r * 100))
      if m ≤ -threshold then some (tk, |m|) else none

/-- `check_stock_drops` (utils/alerts.py lines 24-43): one alert per
listed ticker whose minimum single-day change breaches the threshold. -/
def check_stock_drops (pt : PriceTable) (tickers : List String) (threshold : ℚ) :
    List (String × ℚ) :=
  if pt.rows.isEmpty || pt.symbols.isEmpty then []
  else tickers.filterMap (stockAlert pt threshold)

/-- The per-asset quantity thresholded by `check_stock_drops`: minimum
day-over-day percent change of one column. -/
def minDayChange (col : List ℚ) : ℚ := listMin ((pctChange col).map (fun r => r * 100))

/-- `fillna(method='ffill')` on one column: carry the last known value
forward (`last` is the value carried in, `none` at the start). -/
def ffillCol : Option ℚ → List (Option ℚ) → List (Option ℚ)
  | _, [] => []
  | _, some x :: xs => some x :: ffillCol (some x) xs
  | last, none :: xs => last :: ffillCol last xs

/-- `fillna(method='bfill')` on one column: carry the next known value
backward, i.e. a forward fill of the reversed column. -/
def bfillCol (l : List (Option ℚ)) : List (Option ℚ) :=
  (ffillCol none l.reverse).reverse

/-- `dropna(axis=1, how='all')`: keep only columns holding at least one
value. -/
def dropEmptyCols (cols : List (String × List (Option ℚ))) :
    List (String × List (Option ℚ)) :=
  cols.filter (fun c => c.2.any (fun x => x.isSome))

/-- `data.loc[start_date:end_date]` on one column of a date-indexed
frame: keep the entries whose date lies inside the bounds, inclusively on
both ends. -/
def filterRange (lo hi : ℤ) (dates : List ℤ) (col : List (Option ℚ)) :
    List (Option ℚ) :=
  ((dates.zip col).filter (fun p => lo ≤ p.1 && p.1 ≤ hi)).map Prod.snd

/-- The pure post-download pipeline of `fetch_stock_data`
(utils/data_loader.py lines 12-54) on the flattened raw table: drop
entirely-empty columns, forward-fill then backward-fill each remaining
column, drop entirely-empty columns again, then apply the inclusive date
range.  Raw observations come from the external market-data source; a
missing observation is `none`.  When every column is dropped the code
returns an empty frame, modelled by `([], [])`. -/
def fetch_stock_data (dates : List ℤ) (cols : List (String × List (Option ℚ)))
    (startDate endDate : ℤ) : List ℤ × List (String × List (Option ℚ)) :=
  let cols1 := dropEmptyCols cols
  if cols1.isEmpty then ([], [])
  else
    let cols2 := cols1.map (fun c => (c.1, bfillCol (ffillCol none c.2)))
    let cols3 := dropEmptyCols cols2
    if cols3.isEmpty then ([], [])
    else (dates.filter (fun d => startDate ≤ d && d ≤ endDate),
          cols3.map (fun c => (c.1, filterRange startDate endDate dates c.2)))

/-- Helper for `ewm`: the recursive smoothing
`y = (1 - alpha) * prev + alpha * x` applied along the list. -/
def ewmAux (alpha : ℚ) : ℚ → List ℚ → List ℚ
  | _, [] => []
  | prev, x :: xs =>
    ((1 - alpha) * prev + alpha * x) :: ewmAux alpha ((1 - alpha) * prev + alpha * x) xs

/-- `Series.ewm(span=span, adjust=False).mean()`
(utils/visualization.py lines 170-174): smoothing factor
`alpha = 2/(span+1)`, first value seeding the recursion. -/
def ewm (span : ℕ) (l : List ℚ) : List ℚ :=
  match l with
  | [] => []
  | x :: xs => x :: ewmAux (2 / ((span : ℚ) + 1)) x xs

/-- `macd = ema12 - ema26` (utils/visualization.py line 173). -/
def macdLine (p : List ℚ) : List ℚ :=
  List.zipWith (· - ·) (ewm 12 p) (ewm 26 p)

/-- `signal = macd.ewm(span=9, adjust=False).mean()`
(utils/visualization.py line 174). -/
def signalLine (p : List ℚ) : List ℚ := ewm 9 (macdLine p)

/-- `hist = macd - signal` (utils/visualization.py line 175). -/
def macdHist (p : List ℚ) : List ℚ :=
  List.zipWith (· - ·) (macdLine p) (signalLine p)

/-! ### Generic lemmas about the list folds used by the engines -/

lemma foldl_min_le (xs : List ℚ) : ∀ x : ℚ, xs.foldl min x ≤ x := by
  induction xs with
  | nil => intro x; exact le_rfl
  | cons y ys ih => intro x; exact le_trans (ih (min x y)) (min_le_left x y)

lemma le_foldl_max (xs : List ℚ) : ∀ x : ℚ, x ≤ xs.foldl max x := by
  induction xs with
  | nil => intro x; exact le_rfl
  | cons y ys ih => intro x; exact le_trans (le_max_left x y) (ih (max x y))

lemma listMin_cons_le (x : ℚ) (xs : List ℚ) : listMin (x :: xs) ≤ x :=
  foldl_min_le xs x

lemma listMax_cons_ge (x : ℚ) (xs : List ℚ) : x ≤ listMax (x :: xs) :=
  le_foldl_max xs x

lemma foldl_max_cummaxAux (xs : List ℚ) :
    ∀ m acc : ℚ, m ≤ acc → (cummaxAux m xs).foldl max acc = xs.foldl max acc := by
  induction xs with
  | nil => intro m acc _; rfl
  | cons y ys ih =>
    intro m acc h
    simp only [cummaxAux, List.foldl]
    have h1 : max acc (max m y) = max acc y := by
      rw [← max_assoc, max_eq_left h]
    rw [h1]
    exact ih (max m y) (max acc y) (max_le_max h le_rfl)

lemma listMax_cummax (l : List ℚ) (h : l ≠ []) : listMax (cummax l) = listMax l := by
  cases l with
  | nil => cases h rfl
  | cons x xs => exact foldl_max_cummaxAux xs x x le_rfl

lemma cummaxAux_of_chain (xs : List ℚ) :
    ∀ x : ℚ, List.Chain' (· < ·) (x :: xs) → cummaxAux x xs = xs := by
  induction xs with
  | nil => intro x _; rfl
  | cons y ys ih =>
    intro x h
    rw [List.chain'_cons] at h
    simp only [cummaxAux, max_eq_right h.1.le]
    rw [ih y h.2]

lemma zipWith_sub_self (l : List ℚ) :
    List.zipWith (· - ·) l l = List.replicate l.length 0 := by
  induction l with
  | nil => rfl
  | cons x xs ih => simp [List.zipWith, ih, List.replicate]

lemma foldl_min_replicate_zero (m : ℕ) :
    (List.replicate m (0 : ℚ)).foldl min 0 = 0 := by
  induction m with
  | zero => rfl
  | succ k ihk => simpa [List.replicate, List.foldl] using ihk

lemma listMin_replicate_zero (n : ℕ) : listMin (List.replicate n (0 : ℚ)) = 0 := by
  cases n with
  | zero => rfl
  | succ m => simpa [List.replicate, listMin] using foldl_min_replicate_zero m

/-! ### Claims about the Metrics Engine drawdown -/

/-- Claim C3: for a value series of at least 2 positive points,
`compute_portfolio_metrics` returns Max Drawdown equal to the minimum
over time of (value minus running historical maximum) divided by the
all-time peak (the maximum of the series), and on a strictly increasing
series Max Drawdown is `0`. -/
theorem max_drawdown_formula (s : ℚ → ℚ) (pv : List ℚ) (h2 : 2 ≤ pv.length)
    (hpos : ∀ v ∈ pv, 0 < v) :
    (computePortfolioMetrics s pv).maxDrawdown
        = listMin (List.zipWith (· - ·) pv (cummax pv)) / listMax pv
      ∧ (List.Chain' (· < ·) pv → (computePortfolioMetrics s pv).maxDrawdown = 0) := by
  have hne : pv ≠ [] := by
    intro h; rw [h] at h2; exact absurd h2 (by norm_num)
  constructor
  · show listMin (List.zipWith (· - ·) pv (cummax pv)) / listMax (cummax pv) = _
    rw [listMax_cummax pv hne]
  · intro hchain
    show listMin (List.zipWith (· - ·) pv (cummax pv)) / listMax (cummax pv) = 0
    cases pv with
    | nil => cases hne rfl
    | cons v vs =>
      rw [show cummax (v :: vs) = v :: cummaxAux v vs from rfl,
        cummaxAux_of_chain vs v hchain, zipWith_sub_self,
        listMin_replicate_zero, zero_div]

/-- Witness for C3 at the strictly increasing series `[1, 2]`. -/
theorem max_drawdown_formula_witness :
    (computePortfolioMetrics id [1, 2]).maxDrawdown
        = listMin (List.zipWith (· - ·) [1, 2] (cummax [1, 2])) / listMax [1, 2]
      ∧ (List.Chain' (· < ·) ([1, 2] : List ℚ) →
          (computePortfolioMetrics id [1, 2]).maxDrawdown = 0) :=
  max_drawdown_formula id [1, 2] (by norm_num) (by
    intro v hv
    fin_cases hv <;> norm_num)

/-- Claim C10: for a value series of at least 2 strictly positive points,
the Max Drawdown returned by `compute_portfolio_metrics` is nonpositive. -/
theorem max_drawdown_nonpos (s : ℚ → ℚ) (pv : List ℚ) (h2 : 2 ≤ pv.length)
    (hpos : ∀ v ∈ pv, 0 < v) :
    (computePortfolioMetrics s pv).maxDrawdown ≤ 0 := by
  cases pv with
  | nil => exact absurd h2 (by norm_num)
  | cons v vs =>
    show listMin (List.zipWith (· - ·) (v :: vs) (cummax (v :: vs)))
        / listMax (cummax (v :: vs)) ≤ 0
    have hnum : listMin (List.zipWith (· - ·) (v :: vs) (cummax (v :: vs))) ≤ 0 := by
      have : List.zipWith (· - ·) (v :: vs) (cummax (v :: vs))
          = (v - v) :: List.zipWith (· - ·) vs (cummaxAux v vs) := rfl
      rw [this, sub_self]
      exact listMin_cons_le 0 _
    have hden : 0 < listMax (cummax (v :: vs)) := by
      rw [listMax_cummax _ (by simp)]
      exact lt_of_lt_of_le (hpos v (by simp)) (listMax_cons_ge v vs)
    exact div_nonpos_of_nonpos_of_nonneg hnum hden.le

/-- Witness for C10 at the series `[2, 1]` (drawdown `-1/2`). -/
theorem max_drawdown_nonpos_witness :
    (computePortfolioMetrics id [2, 1]).maxDrawdown ≤ 0 :=
  max_drawdown_nonpos id [2, 1] (by norm_num) (by
    intro v hv
    fin_cases hv <;> norm_num)

/-! ### Claims about the Valuation Engine -/

/-- Claim C7: on an empty price table `compute_portfolio_value` returns
the empty value series for every weights argument and every initial
value, without raising. -/
theorem compute_value_empty (pt : PriceTable) (w : Option (List (String × ℚ)))
    (initial : ℚ) (h : pt.rows = [] ∨ pt.symbols = []) :
    computePortfolioValue pt w initial = .ok [] := by
  unfold computePortfolioValue
  rcases h with h | h <;> simp [h]

/-- Witness for C7: the fully empty table with a zero-sum weights dict. -/
theorem compute_value_empty_witness :
    computePortfolioValue ⟨[], []⟩ (some [("A", 0)]) 5 = .ok [] :=
  compute_value_empty ⟨[], []⟩ (some [("A", 0)]) 5 (Or.inl rfl)

/-- Counterexample to claim C1 as stated: called directly with a weights
dict whose values sum to 0, `compute_portfolio_value` raises
`ZeroDivisionError` (utils/portfolio.py line 26 divides by the zero
total) instead of falling back to equal weights. -/
theorem zero_weights_raise :
    computePortfolioValue ⟨["A", "B"], [[1, 2], [2, 4]]⟩
        (some [("A", 0), ("B", 0)]) 100000 = .error "ZeroDivisionError" := by
  simp [computePortfolioValue, normalizeW]

lemma sum_map_const {α : Type} (l : List α) (c : ℚ) :
    (l.map (fun _ => c)).sum = l.length * c := by
  induction l with
  | nil => simp
  | cons x xs ih => simp [ih]; ring

/-- Re-normalizing the equal-weight dict inside `compute_portfolio_value`
is the identity: its total is exactly `1`. -/
lemma normalizeW_equal (symbols : List String) (hs : symbols ≠ []) :
    normalizeW (some (symbols.map (fun t => (t, 1 / (symbols.length : ℚ))))) symbols
      = .ok (symbols.map (fun t => (t, 1 / (symbols.length : ℚ)))) := by
  have hN : ((symbols.length : ℚ)) ≠ 0 := by
    exact_mod_cast fun h => hs (List.length_eq_zero.mp (by exact_mod_cast h))
  have htot : ((symbols.map (fun t => (t, 1 / (symbols.length : ℚ)))).map Prod.snd).sum
      = 1 := by
    rw [List.map_map]
    show (symbols.map (fun _ => 1 / (symbols.length : ℚ))).sum = 1
    rw [sum_map_const]
    field_simp
  simp only [normalizeW, htot, one_ne_zero, if_false, div_one]
  simp [List.map_map]

lemma lookup_map_self (f : String → ℚ) (l : List String) (t : String) (h : t ∈ l) :
    List.lookup t (l.map (fun u => (u, f u))) = some (f t) := by
  induction l with
  | nil => cases h
  | cons x xs ih =>
    by_cases hx : t = x
    · subst hx; simp [List.lookup]
    · have hb : (t == x) = false := beq_false_of_ne hx
      have hmem : t ∈ xs := by
        rcases List.mem_cons.mp h with h1 | h1
        · cases hx h1
        · exact h1
      simpa [List.lookup, hb] using ih hmem

lemma alignWeights_ok (wdict : List (String × ℚ)) (symbols : List String)
    (h : ∀ t ∈ symbols, (List.lookup t wdict).isSome) :
    ∃ ws, alignWeights wdict symbols = .ok ws := by
  induction symbols with
  | nil => exact ⟨[], rfl⟩
  | cons t ts ih =>
    obtain ⟨v, hv⟩ := Option.isSome_iff_exists.mp (h t (List.mem_cons_self t ts))
    obtain ⟨ws, hws⟩ := ih (fun u hu => h u (List.mem_cons_of_mem t hu))
    exact ⟨v :: ws, by simp [alignWeights, hv, hws]⟩

/-- Amended claim C1: the equal-weight fallback on a zero-sum weight
vector lives in the caller (app.py lines 40-45), not inside
`compute_portfolio_value`.  When the raw weights sum to `0`, the app
normalization produces exactly the weights `1/N` for each of the `N`
tickers, and `compute_portfolio_value` applied to that dict returns a
value series without raising, equal to its default (`weights=None`)
equal-weight path. -/
theorem zero_weights_fallback_via_app (pt : PriceTable) (raw : List ℚ)
    (initial : ℚ) (hs : pt.symbols ≠ []) (hsum : raw.sum = 0) :
    normalizeWeightsApp pt.symbols raw
        = pt.symbols.map (fun t => (t, 1 / (pt.symbols.length : ℚ)))
      ∧ computePortfolioValue pt (some (normalizeWeightsApp pt.symbols raw)) initial
          = computePortfolioValue pt none initial
      ∧ ∃ vs, computePortfolioValue pt (some (normalizeWeightsApp pt.symbols raw))
          initial = .ok vs := by
  have h1 : normalizeWeightsApp pt.symbols raw
      = pt.symbols.map (fun t => (t, 1 / (pt.symbols.length : ℚ))) := by
    simp [normalizeWeightsApp, hsum]
  have e1 := normalizeW_equal pt.symbols hs
  have e2 : normalizeW none pt.symbols
      = .ok (pt.symbols.map (fun t => (t, 1 / (pt.symbols.length : ℚ)))) := rfl
  refine ⟨h1, ?_, ?_⟩
  · rw [h1]
    unfold computePortfolioValue
    rw [e1, e2]
  · rw [h1]
    by_cases hemp : pt.rows.isEmpty || pt.symbols.isEmpty
    · exact ⟨[], by unfold computePortfolioValue; rw [if_pos hemp]⟩
    · obtain ⟨ws, hws⟩ := alignWeights_ok
        (pt.symbols.map (fun t => (t, 1 / (pt.symbols.length : ℚ)))) pt.symbols
        (fun t ht => by
          rw [lookup_map_self (fun _ => 1 / (pt.symbols.length : ℚ)) pt.symbols t ht]
          rfl)
      have heq : computePortfolioValue pt
          (some (pt.symbols.map (fun t => (t, 1 / (pt.symbols.length : ℚ))))) initial
          = .ok (pt.rows.map (fun row =>
              (List.zipWith (· * ·)
                (List.zipWith (· / ·) row (pt.rows.headD [])) ws).sum * initial)) := by
        unfold computePortfolioValue
        rw [if_neg hemp, e1]
        simp only [hws]
      exact ⟨_, heq⟩

/-- Witness for the amended C1: two tickers with raw weights `{A:0, B:0}`
become effective weights `{A:1/2, B:1/2}` and valuation succeeds. -/
theorem zero_weights_fallback_via_app_witness :
    normalizeWeightsApp ["A", "B"] [0, 0]
        = [("A", 1 / 2), ("B", 1 / 2)]
      ∧ computePortfolioValue ⟨["A", "B"], [[1, 2], [2, 4]]⟩
            (some (normalizeWeightsApp ["A", "B"] [0, 0])) 100000
          = computePortfolioValue ⟨["A", "B"], [[1, 2], [2, 4]]⟩ none 100000
      ∧ ∃ vs, computePortfolioValue ⟨["A", "B"], [[1, 2], [2, 4]]⟩
            (some (normalizeWeightsApp ["A", "B"] [0, 0])) 100000 = .ok vs := by
  have h := zero_weights_fallback_via_app ⟨["A", "B"], [[1, 2], [2, 4]]⟩ [0, 0]
    100000 (by simp) (by norm_num)
  refine ⟨?_, h.2.1, h.2.2⟩
  rw [h.1]
  norm_num

lemma headD_map_ne (f : ℚ → ℚ) (l : List ℚ) (h : l ≠ []) :
    (l.map f).headD 0 = f (l.headD 0) := by
  cases l with
  | nil => cases h rfl
  | cons x xs => rfl

lemma revHeadD_map (f : ℚ → ℚ) (l : List ℚ) (h : l ≠ []) :
    (l.map f).reverse.headD 0 = f (l.reverse.headD 0) := by
  rw [← List.map_reverse]
  exact headD_map_ne f l.reverse (by simp [h])

/-- Counterexample to claim C6 as stated ("for every initial value"): at
`initial_value = 0` the engine produces the all-zero value series, whose
cumulative return is not the raw price ratio (the Python code evaluates
`0.0/0.0`, i.e. nan, while the direct computation gives `1`). -/
theorem single_asset_cumulative_zero_initial :
    computePortfolioValue ⟨["A"], [[1], [2]]⟩ (some [("A", 1)]) 0 = .ok [0, 0]
      ∧ cumulativeReturn [0, 0] ≠ cumulativeReturn [1, 2] := by
  constructor
  · simp [computePortfolioValue, normalizeW, alignWeights, List.lookup]
  · norm_num [cumulativeReturn]

/-- Amended claim C6: for a single-asset table with at least 2 dates,
nonzero first price, weight `1.0` and nonzero initial value, the
cumulative return of the value series produced by
`compute_portfolio_value` (`last/first - 1`) equals
`price[-1]/price[0] - 1` computed directly on the raw price column
(exact agreement of the modelled arithmetic). -/
theorem single_asset_cumulative (tk : String) (prices : List ℚ) (initial : ℚ)
    (h2 : 2 ≤ prices.length) (hp : prices.headD 0 ≠ 0) (hi : initial ≠ 0) :
    ∃ vs,
      computePortfolioValue ⟨[tk], prices.map (fun p => [p])⟩
          (some [(tk, 1)]) initial = .ok vs
        ∧ cumulativeReturn vs = cumulativeReturn prices := by
  cases prices with
  | nil => exact absurd h2 (by norm_num)
  | cons p0 rest =>
    have hp0 : p0 ≠ 0 := hp
    refine ⟨(p0 :: rest).map (fun p => p / p0 * (1 / 1) * initial), ?_, ?_⟩
    · simp [computePortfolioValue, normalizeW, alignWeights, List.lookup,
        List.map_map, Function.comp]
    · rw [cumulativeReturn, cumulativeReturn,
        revHeadD_map _ _ (by simp), headD_map_ne _ _ (by simp)]
      have hh : (p0 :: rest).headD 0 = p0 := rfl
      rw [hh, div_self hp0]
      rw [show (1 : ℚ) * (1 / 1) * initial = initial by norm_num]
      rw [mul_div_assoc, div_self hi, mul_one]
      norm_num

/-- Witness for the amended C6 at prices `[1, 2]`, weight `1.0`, initial
value `100000`. -/
theorem single_asset_cumulative_witness :
    ∃ vs,
      computePortfolioValue ⟨["X"], [1, 2].map (fun p => [p])⟩
          (some [("X", 1)]) 100000 = .ok vs
        ∧ cumulativeReturn vs = cumulativeReturn [1, 2] :=
  single_asset_cumulative "X" [1, 2] 100000 (by norm_num) (by norm_num)
    (by norm_num)

/-! ### Claims about the Metrics Engine ratios -/

/-- Claim C2: on a value series of at least 2 points with no negative
daily return, `compute_sortino_ratio` returns nan (`none`), which is
distinct from `some 0`, and raises nothing: the empty downside sample
has nan standard deviation, the `downside_std == 0` test is false on
nan, and the nan propagates through the final division. -/
theorem sortino_no_downside (s : ℚ → ℚ) (riskFree : ℚ) (values : List ℚ)
    (h2 : 2 ≤ values.length) (hnn : ∀ r ∈ pctChange values, 0 ≤ r) :
    computeSortino s riskFree values = none := by
  have hf : (pctChange values).filter (fun r => r < 0) = [] := by
    rw [List.filter_eq_nil_iff]
    intro a ha
    simpa using not_lt.mpr (hnn a ha)
  simp [computeSortino, hf, pandasStd]

/-- Witness for C2 on the strictly increasing series `[1, 2, 4]`. -/
theorem sortino_no_downside_witness :
    computeSortino id (2 / 100) [1, 2, 4] = none :=
  sortino_no_downside id (2 / 100) [1, 2, 4] (by norm_num) (by
    have h : pctChange [1, 2, 4] = [1, 1] := by norm_num [pctChange]
    rw [h]
    intro r hr
    fin_cases hr <;> norm_num)

/-! ### Claims about the Alert Engine -/

/-- Claim C4: for a nonempty value series with positive first value,
`check_portfolio_drop` emits an alert iff the minimum over the whole
series of the percent change of each point relative to the first value
is `≤ -threshold` (ties trigger), and the alert carries the magnitude of
that worst drop over the whole series. -/
theorem portfolio_drop_iff (pv : List ℚ) (t : ℚ) (hne : pv ≠ [])
    (hpos : 0 < pv.headD 0) :
    ((check_portfolio_drop pv t).isSome ↔
        listMin (pv.map (fun v => (v / pv.headD 0 - 1) * 100)) ≤ -t)
      ∧ ∀ a, check_portfolio_drop pv t = some a →
          a = |listMin (pv.map (fun v => (v / pv.headD 0 - 1) * 100))| := by
  cases pv with
  | nil => cases hne rfl
  | cons v0 vs =>
    constructor
    · by_cases h : listMin ((v0 :: vs).map (fun v => (v / v0 - 1) * 100)) ≤ -t <;>
        simp [check_portfolio_drop, List.headD, h]
    · intro a ha
      simp only [check_portfolio_drop] at ha
      by_cases h : listMin ((v0 :: vs).map (fun v => (v / v0 - 1) * 100)) ≤ -t
      · rw [if_pos h] at ha
        simp only [List.headD]
        exact (Option.some_inj.mp ha).symm
      · rw [if_neg h] at ha
        cases ha

/-- Witness for C4 at the spec's example: series `[100, 90, 95]` with
threshold `5` alerts with the worst historical drop `10`, not the latest
change `5`. -/
theorem portfolio_drop_iff_witness :
    check_portfolio_drop [100, 90, 95] 5 = some 10
      ∧ ((check_portfolio_drop [100, 90, 95] 5).isSome ↔
          listMin (([100, 90, 95] : List ℚ).map
            (fun v => (v / ([100, 90, 95] : List ℚ).headD 0 - 1) * 100)) ≤ -5) := by
  constructor
  · norm_num [check_portfolio_drop, listMin, min_def, abs]
  · exact (portfolio_drop_iff [100, 90, 95] 5 (by simp) (by norm_num)).1

lemma countP_filterMap {α β : Type} (f : α → Option β) (p : β → Bool)
    (l : List α) :
    (l.filterMap f).countP p = l.countP (fun a => ((f a).map p).getD false) := by
  induction l with
  | nil => rfl
  | cons x xs ih =>
    cases hx : f x with
    | none => simp [List.filterMap_cons, hx, List.countP_cons, ih]
    | some b => simp [List.filterMap_cons, hx, List.countP_cons, ih]

lemma countP_eq_single {α : Type} (l : List α) (q : α → Bool) (a : α)
    (hnd : l.Nodup) (ha : a ∈ l) (hq : ∀ b ∈ l, q b = true → b = a) :
    l.countP q = if q a then 1 else 0 := by
  induction l with
  | nil => cases ha
  | cons x xs ih =>
    have hx : x ∉ xs := (List.nodup_cons.mp hnd).1
    rw [List.countP_cons]
    rcases List.mem_cons.mp ha with rfl | hmem
    · have h0 : xs.countP q = 0 := by
        rw [List.countP_eq_zero]
        intro b hb hqb
        exact hx ((hq b (List.mem_cons_of_mem _ hb) hqb) ▸ hb)
      rw [h0, zero_add]
    · have hqx : q x = false := by
        by_contra hc
        have hxa : x = a := hq x (List.mem_cons_self x xs)
          (by revert hc; cases q x <;> simp)
        exact hx (hxa ▸ hmem)
      rw [hqx]
      rw [ih (List.nodup_cons.mp hnd).2 hmem
        (fun b hb hqb => hq b (List.mem_cons_of_mem _ hb) hqb)]
      simp

lemma stockAlert_some_fst (pt : PriceTable) (t : ℚ) (tk : String)
    (p : String × ℚ) (h : stockAlert pt t tk = some p) : p.1 = tk := by
  cases hcol : getCol pt tk with
  | none => simp [stockAlert, hcol] at h
  | some col =>
    cases hdc : pctChange col with
    | nil => simp [stockAlert, hcol, hdc] at h
    | cons dc0 dcs =>
      simp only [stockAlert, hcol, hdc] at h
      split at h
      · rw [← Option.some_inj.mp h]
      · cases h

lemma stockAlert_eq (pt : PriceTable) (t : ℚ) (tk : String) (col : List ℚ)
    (hcol : getCol pt tk = some col) (hdc : pctChange col ≠ []) :
    stockAlert pt t tk
      = if minDayChange col ≤ -t then some (tk, |minDayChange col|) else none := by
  cases hdc2 : pctChange col with
  | nil => cases hdc hdc2
  | cons dc0 dcs => simp only [stockAlert, hcol, hdc2, minDayChange]

/-- Claim C5: on a nonempty price table and a duplicate-free ticker list
whose tickers all have a column with at least one day-over-day change,
`check_stock_drops` emits exactly one alert for each ticker whose
minimum single-day percent change over the whole series is
`≤ -threshold`, carrying that worst single-day drop, and no alert for
any other ticker. -/
theorem stock_drops_characterization (pt : PriceTable) (tickers : List String)
    (t : ℚ) (hrows : pt.rows ≠ []) (hsym : pt.symbols ≠ [])
    (hnd : tickers.Nodup)
    (hcols : ∀ tk ∈ tickers, (getCol pt tk).isSome
        ∧ pctChange ((getCol pt tk).getD []) ≠ []) :
    (∀ p ∈ check_stock_drops pt tickers t, p.1 ∈ tickers)
      ∧ ∀ tk ∈ tickers,
          ((check_stock_drops pt tickers t).countP (fun p => p.1 == tk)
              = if minDayChange ((getCol pt tk).getD []) ≤ -t then 1 else 0)
            ∧ ∀ p ∈ check_stock_drops pt tickers t, p.1 = tk →
                p.2 = |minDayChange ((getCol pt tk).getD [])| := by
  have hne : check_stock_drops pt tickers t
      = tickers.filterMap (stockAlert pt t) := by
    unfold check_stock_drops
    rw [if_neg]
    simp [List.isEmpty_iff, hrows, hsym]
  constructor
  · intro p hp
    rw [hne] at hp
    obtain ⟨tk, htk, hfa⟩ := List.mem_filterMap.mp hp
    exact (stockAlert_some_fst pt t tk p hfa) ▸ htk
  · intro tk htk
    obtain ⟨hsome, hdc⟩ := hcols tk htk
    obtain ⟨col, hcol⟩ := Option.isSome_iff_exists.mp hsome
    have hgd : (getCol pt tk).getD [] = col := by rw [hcol]; rfl
    rw [hgd] at hdc ⊢
    have halert := stockAlert_eq pt t tk col hcol hdc
    constructor
    · rw [hne, countP_filterMap]
      rw [countP_eq_single tickers _ tk hnd htk (fun b hb hqb => ?uniq)]
      case uniq =>
        cases hfa : stockAlert pt t b with
        | none => rw [hfa] at hqb; cases hqb
        | some p =>
          rw [hfa] at hqb
          have hp1 : p.1 = tk := by simpa using hqb
          exact hp1 ▸ (stockAlert_some_fst pt t b p hfa).symm
      by_cases hm : minDayChange col ≤ -t
      · rw [if_pos hm]
        rw [halert, if_pos hm]
        simp
      · rw [if_neg hm]
        rw [halert, if_neg hm]
        simp
    · intro p hp hfst
      rw [hne] at hp
      obtain ⟨b, hb, hfb⟩ := List.mem_filterMap.mp hp
      have hbtk : b = tk := (stockAlert_some_fst pt t b p hfb) ▸ hfst
      rw [hbtk, halert] at hfb
      split at hfb
      · rw [← Option.some_inj.mp hfb]
      · cases hfb

/-- Witness for C5: in the table with columns `A = [100, 90, 95]`,
`B = [50, 49, 48]` and threshold `5`, ticker `A` (worst single-day drop
`10%`) gets exactly one alert. -/
theorem stock_drops_characterization_witness :
    (check_stock_drops ⟨["A", "B"], [[100, 50], [90, 49], [95, 48]]⟩
        ["A", "B"] 5).countP (fun p => p.1 == "A")
      = if minDayChange ((getCol
            ⟨["A", "B"], [[100, 50], [90, 49], [95, 48]]⟩ "A").getD []) ≤ -5
        then 1 else 0 :=
  ((stock_drops_characterization ⟨["A", "B"], [[100, 50], [90, 49], [95, 48]]⟩
      ["A", "B"] 5 (by simp) (by simp) (by decide) (by decide)).2
    "A" (by simp)).1

/-! ### Claims about the PriceSeries Normalizer -/

lemma ffillCol_some_allSome (col : List (Option ℚ)) :
    ∀ (v : ℚ) (x : Option ℚ), x ∈ ffillCol (some v) col → x.isSome = true := by
  induction col with
  | nil => intro v x hx; simp [ffillCol] at hx
  | cons y ys ih =>
    intro v x hx
    cases y with
    | some z =>
      rcases List.mem_cons.mp hx with rfl | hx2
      · rfl
      · exact ih z x hx2
    | none =>
      rcases List.mem_cons.mp hx with rfl | hx2
      · rfl
      · exact ih v x hx2

lemma getLast?_cons_ffill (ys : List (Option ℚ)) :
    ∀ z : ℚ, ∃ w : ℚ,
      ((some z : Option ℚ) :: ffillCol (some z) ys).getLast? = some (some w) := by
  induction ys with
  | nil => intro z; exact ⟨z, rfl⟩
  | cons y yt ih =>
    intro z
    cases y with
    | some u =>
      obtain ⟨w, hw⟩ := ih u
      exact ⟨w, by
        show ((some z : Option ℚ) :: some u :: ffillCol (some u) yt).getLast?
            = some (some w)
        rw [List.getLast?_cons_cons]; exact hw⟩
    | none =>
      obtain ⟨w, hw⟩ := ih z
      exact ⟨w, by
        show ((some z : Option ℚ) :: some z :: ffillCol (some z) yt).getLast?
            = some (some w)
        rw [List.getLast?_cons_cons]; exact hw⟩

lemma ffill_none_getLast (col : List (Option ℚ))
    (h : col.any (fun x => x.isSome) = true) :
    ∃ w : ℚ, (ffillCol none col).getLast? = some (some w) := by
  induction col with
  | nil => simp at h
  | cons y ys ih =>
    cases y with
    | some z => exact getLast?_cons_ffill ys z
    | none =>
      have hys : ys.any (fun x => x.isSome) = true := by simpa using h
      obtain ⟨w, hw⟩ := ih hys
      refine ⟨w, ?_⟩
      show ((none : Option ℚ) :: ffillCol none ys).getLast? = some (some w)
      cases hys2 : ffillCol none ys with
      | nil => rw [hys2] at hw; simp at hw
      | cons a l => rw [hys2] at hw; rw [List.getLast?_cons_cons]; exact hw

lemma ffill_allSome_of_head (z : ℚ) (rest : List (Option ℚ)) :
    ∀ x ∈ ffillCol none (some z :: rest), x.isSome = true := by
  intro x hx
  rcases List.mem_cons.mp hx with rfl | hx2
  · rfl
  · exact ffillCol_some_allSome rest z x hx2

/-- Forward fill then backward fill makes a column with at least one
observation entirely observed. -/
lemma bfill_ffill_allSome (col : List (Option ℚ))
    (h : col.any (fun x => x.isSome) = true) :
    ∀ x ∈ bfillCol (ffillCol none col), x.isSome = true := by
  intro x hx
  unfold bfillCol at hx
  rw [List.mem_reverse] at hx
  obtain ⟨w, hw⟩ := ffill_none_getLast col h
  have hrev : (ffillCol none col).reverse.head? = some (some w) := by
    rw [List.head?_reverse]; exact hw
  cases hsh : (ffillCol none col).reverse with
  | nil => rw [hsh] at hrev; cases hrev
  | cons a tail =>
    rw [hsh] at hrev hx
    have ha : a = some w := by simpa using hrev
    rw [ha] at hx
    exact ffill_allSome_of_head w tail x hx

lemma mem_of_mem_filterRange (lo hi : ℤ) (dates : List ℤ)
    (col : List (Option ℚ)) (x : Option ℚ)
    (hx : x ∈ filterRange lo hi dates col) : x ∈ col := by
  unfold filterRange at hx
  obtain ⟨p, hp, hpx⟩ := List.mem_map.mp hx
  obtain ⟨a, b⟩ := p
  have hz := List.of_mem_zip (List.mem_of_mem_filter hp)
  rw [← hpx]
  exact hz.2

/-- Claim C8: whenever `fetch_stock_data` retains at least one column, it
has forward- then backward-filled every retained column from its raw
observations, dropped the columns without any observation, and applied
the date-range filter, inclusive on both bounds, only after filling —
consequently every retained column has no missing value. -/
theorem fetch_fill_filter (dates : List ℤ) (cols : List (String × List (Option ℚ)))
    (lo hi : ℤ) (hne : (fetch_stock_data dates cols lo hi).2 ≠ []) :
    (∀ c ∈ (fetch_stock_data dates cols lo hi).2, ∀ x ∈ c.2, x.isSome = true)
      ∧ (∀ d : ℤ, d ∈ (fetch_stock_data dates cols lo hi).1 ↔
          d ∈ dates ∧ lo ≤ d ∧ d ≤ hi)
      ∧ (∀ c ∈ (fetch_stock_data dates cols lo hi).2, ∃ c0 ∈ cols,
          c.1 = c0.1 ∧ c0.2.any (fun x => x.isSome) = true
            ∧ c.2 = filterRange lo hi dates (bfillCol (ffillCol none c0.2))) := by
  by_cases h1 : (dropEmptyCols cols).isEmpty
  · exfalso
    apply hne
    unfold fetch_stock_data
    rw [if_pos h1]
  · by_cases h3 : (dropEmptyCols ((dropEmptyCols cols).map
        (fun c => (c.1, bfillCol (ffillCol none c.2))))).isEmpty
    · exfalso
      apply hne
      unfold fetch_stock_data
      rw [if_neg h1]
      simp only [h3, if_true]
    · have hout : fetch_stock_data dates cols lo hi
          = (dates.filter (fun d => lo ≤ d && d ≤ hi),
             (dropEmptyCols ((dropEmptyCols cols).map
               (fun c => (c.1, bfillCol (ffillCol none c.2))))).map
                 (fun c => (c.1, filterRange lo hi dates c.2))) := by
        unfold fetch_stock_data
        rw [if_neg h1]
        simp [h3]
      have hcol : ∀ c ∈ (fetch_stock_data dates cols lo hi).2, ∃ c0 ∈ cols,
          c.1 = c0.1 ∧ c0.2.any (fun x => x.isSome) = true
            ∧ c.2 = filterRange lo hi dates (bfillCol (ffillCol none c0.2)) := by
        intro c hc
        rw [hout] at hc
        obtain ⟨c2, hc2, hc2e⟩ := List.mem_map.mp hc
        have hc2m : c2 ∈ (dropEmptyCols cols).map
            (fun c => (c.1, bfillCol (ffillCol none c.2))) :=
          List.mem_of_mem_filter hc2
        obtain ⟨cA, hcA, hcAe⟩ := List.mem_map.mp hc2m
        have hcAm : cA ∈ cols := List.mem_of_mem_filter hcA
        have hcAany : cA.2.any (fun x => x.isSome) = true :=
          (List.mem_filter.mp hcA).2
        refine ⟨cA, hcAm, ?_, hcAany, ?_⟩
        · rw [← hc2e, ← hcAe]
        · rw [← hc2e, ← hcAe]
      refine ⟨?_, ?_, hcol⟩
      · intro c hc x hx
        obtain ⟨c0, _, _, h0any, h0fill⟩ := hcol c hc
        rw [h0fill] at hx
        exact bfill_ffill_allSome c0.2 h0any x
          (mem_of_mem_filterRange lo hi dates _ x hx)
      · intro d
        rw [hout]
        show d ∈ dates.filter (fun d => lo ≤ d && d ≤ hi) ↔ _
        rw [List.mem_filter]
        simp

/-- Witness for C8: dates `[1, 2, 3]`, column `A = [missing, 5, missing]`
entirely filled with `5`, column `B` entirely missing and dropped, range
`[2, 3]` applied inclusively after the fill. -/
theorem fetch_fill_filter_witness :
    (2 : ℤ) ∈ (fetch_stock_data [1, 2, 3]
        [("A", [none, some 5, none]), ("B", [none, none, none])] 2 3).1 ↔
      (2 : ℤ) ∈ ([1, 2, 3] : List ℤ) ∧ (2 : ℤ) ≤ 2 ∧ (2 : ℤ) ≤ 3 :=
  ((fetch_fill_filter [1, 2, 3]
      [("A", [none, some 5, none]), ("B", [none, none, none])] 2 3
      (by decide)).2.1 2)

/-! ### Claims about the Indicator Engine MACD -/

lemma length_ewmAux (alpha : ℚ) (xs : List ℚ) :
    ∀ prev : ℚ, (ewmAux alpha prev xs).length = xs.length := by
  induction xs with
  | nil => intro prev; rfl
  | cons x xt ih => intro prev; simp [ewmAux, ih]

lemma length_ewm (span : ℕ) (l : List ℚ) : (ewm span l).length = l.length := by
  cases l with
  | nil => rfl
  | cons x xs => simp [ewm, length_ewmAux]

lemma length_macdLine (p : List ℚ) : (macdLine p).length = p.length := by
  simp [macdLine, List.length_zipWith, length_ewm]

lemma length_signalLine (p : List ℚ) : (signalLine p).length = p.length := by
  rw [signalLine, length_ewm, length_macdLine]

lemma zipWith_sub_getD : ∀ (l1 l2 : List ℚ) (i : ℕ), i < l1.length →
    i < l2.length →
    (List.zipWith (· - ·) l1 l2).getD i 0 = l1.getD i 0 - l2.getD i 0 := by
  intro l1
  induction l1 with
  | nil => intro l2 i h1 _; simp at h1
  | cons x xs ih =>
    intro l2 i h1 h2
    cases l2 with
    | nil => simp at h2
    | cons y ys =>
      cases i with
      | zero => simp [List.zipWith_cons_cons, List.getD_cons_zero]
      | succ j =>
        simp only [List.zipWith_cons_cons, List.getD_cons_succ]
        exact ih ys j (by simpa using h1) (by simpa using h2)

lemma ewmAux_getD (alpha : ℚ) (xs : List ℚ) :
    ∀ (prev : ℚ) (i : ℕ), i < xs.length →
      (ewmAux alpha prev xs).getD i 0
        = (1 - alpha) * ((prev :: ewmAux alpha prev xs).getD i 0)
          + alpha * xs.getD i 0 := by
  induction xs with
  | nil => intro prev i h; simp at h
  | cons x xt ih =>
    intro prev i h
    cases i with
    | zero => simp [ewmAux, List.getD_cons_zero]
    | succ j =>
      have hj : j < xt.length := by simpa using h
      show (ewmAux alpha prev (x :: xt)).getD (j + 1) 0 = _
      rw [show ewmAux alpha prev (x :: xt)
          = ((1 - alpha) * prev + alpha * x)
            :: ewmAux alpha ((1 - alpha) * prev + alpha * x) xt from rfl]
      rw [List.getD_cons_succ, ih ((1 - alpha) * prev + alpha * x) j hj]
      rw [show ((x :: xt).getD (j + 1) 0) = xt.getD j 0 from List.getD_cons_succ]
      rw [show ((prev :: ((1 - alpha) * prev + alpha * x)
          :: ewmAux alpha ((1 - alpha) * prev + alpha * x) xt).getD (j + 1) 0)
          = (((1 - alpha) * prev + alpha * x)
            :: ewmAux alpha ((1 - alpha) * prev + alpha * x) xt).getD j 0
        from List.getD_cons_succ]

lemma ewm_getD_succ (span : ℕ) (l : List ℚ) (i : ℕ) (h : i + 1 < l.length) :
    (ewm span l).getD (i + 1) 0
      = (1 - 2 / ((span : ℚ) + 1)) * (ewm span l).getD i 0
        + (2 / ((span : ℚ) + 1)) * l.getD (i + 1) 0 := by
  cases l with
  | nil => simp at h
  | cons x xs =>
    have hx : i < xs.length := by simpa using h
    show (x :: ewmAux (2 / ((span : ℚ) + 1)) x xs).getD (i + 1) 0 = _
    rw [List.getD_cons_succ, ewmAux_getD (2 / ((span : ℚ) + 1)) xs x i hx]
    rw [show ((x :: xs).getD (i + 1) 0) = xs.getD i 0 from List.getD_cons_succ]
    rfl

/-- Claim C9: the MACD computation uses exponential moving averages with
smoothing factor `2/(span+1)`, seeded by the first value (the recursion
step holding wherever a successor index exists); the MACD line is
`EMA12 - EMA26`, the signal line is `EMA(MACD, 9)`, and the histogram
equals the MACD line minus the signal line at every index of the series,
the last one included. -/
theorem macd_ewm_spec (p : List ℚ) (span : ℕ) (i : ℕ) (h2 : i < p.length) :
    (ewm span p).headD 0 = p.headD 0
      ∧ (i + 1 < p.length →
          (ewm span p).getD (i + 1) 0
            = (1 - 2 / ((span : ℚ) + 1)) * (ewm span p).getD i 0
              + (2 / ((span : ℚ) + 1)) * p.getD (i + 1) 0)
      ∧ (macdLine p).getD i 0 = (ewm 12 p).getD i 0 - (ewm 26 p).getD i 0
      ∧ (macdHist p).getD i 0
          = (macdLine p).getD i 0 - (signalLine p).getD i 0 := by
  refine ⟨?_, fun h3 => ewm_getD_succ span p i h3, ?_, ?_⟩
  · cases p with
    | nil => rfl
    | cons x xs => rfl
  · exact zipWith_sub_getD (ewm 12 p) (ewm 26 p) i
      (by rw [length_ewm]; exact h2) (by rw [length_ewm]; exact h2)
  · exact zipWith_sub_getD (macdLine p) (signalLine p) i
      (by rw [length_macdLine]; exact h2) (by rw [length_signalLine]; exact h2)

/-- Witness for C9 at the price series `[1, 2, 4]`, span `3`, index `2`:
the last date, where the MACD-line and histogram identities still hold
and the recursion-step conjunct is vacuous. -/
theorem macd_ewm_spec_witness :
    (ewm 3 [1, 2, 4]).headD 0 = ([1, 2, 4] : List ℚ).headD 0
      ∧ (2 + 1 < ([1, 2, 4] : List ℚ).length →
          (ewm 3 [1, 2, 4]).getD 3 0
            = (1 - 2 / ((3 : ℕ) + 1 : ℚ)) * (ewm 3 [1, 2, 4]).getD 2 0
              + (2 / ((3 : ℕ) + 1 : ℚ)) * ([1, 2, 4] : List ℚ).getD 3 0)
      ∧ (macdLine [1, 2, 4]).getD 2 0
          = (ewm 12 [1, 2, 4]).getD 2 0 - (ewm 26 [1, 2, 4]).getD 2 0
      ∧ (macdHist [1, 2, 4]).getD 2 0
          = (macdLine [1, 2, 4]).getD 2 0 - (signalLine [1, 2, 4]).getD 2 0 :=
  macd_ewm_spec [1, 2, 4] 3 2 (by norm_num)

end StockPortfolio
